import Mathlib

/-!
Verification of the Dosbox automation harness (flaggle).

The definitions below are a shallow embedding of the component functions in
the source file `Dosbox.tsx`: the stroke translator `toKeyCodes`, the timed
input sequencer `sendStrokes`, the image polling loop `watchForImage`, and
the virtual-filesystem bridge `writeFile` / `getFile`.  JS strings are
modelled as Lean `String` (a list of unicode scalar values, matching JS
string iteration), JS numbers appearing as key codes and byte values as
`Nat`, and thrown exceptions as `Except` error values.
-/

namespace Flaggle

/-- Error raised by `toKeyCodes`: in the source both cases are a thrown
`Error`; the payloads record what the message interpolates (the offending
character and the originating command token, resp. the unconvertible
command token). The spec calls this `InvalidStrokeError`. -/
inductive StrokeError
  | invalidChar (char : Char) (command : String)
  | cantConvert (command : String)
deriving DecidableEq, Repr

/-- The non-ASCII characters whose full-Unicode uppercase mapping begins
with an ASCII letter, paired with that leading UTF-16 code unit: the
UnicodeData simple maps ı → I and ſ → S, and the SpecialCasing full maps
ß → SS and the Latin ligatures ﬀ ﬁ ﬂ ﬃ ﬄ → FF FI FL FFI FFL and
ﬅ ﬆ → ST ST.  Every other character's uppercase mapping stays within its
own script (or is the character itself when uncased), so its leading code
unit is never an ASCII digit or letter. -/
def unicodeUpperAsciiLead (c : Char) : Option Nat :=
  if c = 'ß' then some 83
  else if c = 'ı' then some 73
  else if c = 'ſ' then some 83
  else if c = 'ﬀ' then some 70
  else if c = 'ﬁ' then some 70
  else if c = 'ﬂ' then some 70
  else if c = 'ﬃ' then some 70
  else if c = 'ﬄ' then some 70
  else if c = 'ﬅ' then some 83
  else if c = 'ﬆ' then some 83
  else none

/-- Embedding of JS `char.toUpperCase().charCodeAt(0)` (full-Unicode
uppercasing): ASCII lowercase maps into A–Z; the `unicodeUpperAsciiLead`
characters uppercase to a string led by an ASCII letter.  Every other
character's uppercase leading unit lies outside both ranges 48–57 and
65–90 that the caller accepts, and the caller then discards the value
(it throws), so it is represented by the character's own code. -/
def jsUpperCharCode (c : Char) : Nat :=
  if 97 ≤ c.toNat ∧ c.toNat ≤ 122 then c.toNat - 32
  else
    match unicodeUpperAsciiLead c with
    | some u => u
    | none => c.toNat

/-- Embedding of JS `String.prototype.toLowerCase` (ASCII case-map). -/
def jsLowerChar (c : Char) : Char :=
  if 65 ≤ c.toNat ∧ c.toNat ≤ 90 then Char.ofNat (c.toNat + 32) else c

/-- Embedding of `command.toLowerCase()`. -/
def jsToLower (s : String) : String :=
  ⟨s.data.map jsLowerChar⟩

/-- The per-character body of the `rest.map` in the literal-directive branch
of `toKeyCodes`:
`const alphanumCode = char.toUpperCase().charCodeAt(0); if (...) return ...;
 throw ...`. -/
def alphanumCode (char : Char) (command : String) : Except StrokeError Nat :=
  let code := jsUpperCharCode char
  if 48 ≤ code ∧ code ≤ 57 then .ok code
  else if 65 ≤ code ∧ code ≤ 90 then .ok code
  else .error (.invalidChar char command)

/-- A value the translator can place in the key-code list: a number, from
the literal branch or from an own property of the `manualMap` object
literal, or a member inherited from `Object.prototype` through the
prototype chain of the object literal (the TS `number` annotation on
`manualCode` has no runtime effect). -/
inductive KeyCodeValue
  | num (code : Nat)
  | protoMember (name : String)
deriving DecidableEq, Repr

/-- The `rest.map(...)` call of the literal-directive branch, with the
exception propagated (JS `map` runs the callback left to right and the
first throw aborts the whole call). -/
def literalCodes (command : String) : List Char → Except StrokeError (List KeyCodeValue)
  | [] => .ok []
  | c :: cs =>
    match alphanumCode c command with
    | .error e => .error e
    | .ok code =>
      match literalCodes command cs with
      | .error e => .error e
      | .ok more => .ok (.num code :: more)

/-- The property names a plain object literal inherits from
`Object.prototype`, each of which reads back as a truthy object or
function (`__proto__` yields `Object.prototype` itself via the inherited
accessor). -/
def objectPrototypeMembers : List String :=
  ["constructor", "hasOwnProperty", "isPrototypeOf", "propertyIsEnumerable",
    "toLocaleString", "toString", "valueOf", "__proto__",
    "__defineGetter__", "__defineSetter__", "__lookupGetter__",
    "__lookupSetter__"]

/-- The JS property lookup `manualMap[key]` of the source: the seven own
properties of the object literal, then the prototype chain
(`Object.prototype` members), then `undefined`.  `if (manualCode)` in the
source is truthiness; no own value is 0 and every inherited member is an
object or function, so a hit is exactly `isSome`. -/
def manualMap (s : String) : Option KeyCodeValue :=
  if s = "left" then some (.num 37)
  else if s = "up" then some (.num 38)
  else if s = "right" then some (.num 39)
  else if s = "down" then some (.num 40)
  else if s = "alt" then some (.num 18)
  else if s = "enter" then some (.num 13)
  else if s = "esc" then some (.num 27)
  else if s ∈ objectPrototypeMembers then some (.protoMember s)
  else none

/-- The `flatMap` body of `toKeyCodes` applied to one stroke token:
`const [first, ...rest] = command; if (first === ":") ... ; const manualCode
 = manualMap[command.toLowerCase()]; if (manualCode) return [manualCode];
 throw ...`. -/
def tokenToKeyCodes (command : String) : Except StrokeError (List KeyCodeValue) :=
  match command.data with
  | ':' :: rest => literalCodes command rest
  | _ =>
    match manualMap (jsToLower command) with
    | some code => .ok [code]
    | none => .error (.cantConvert command)

/-- `toKeyCodes`: `strokes.flatMap(command => ...)`, with a throw from any
callback aborting the whole call. -/
def toKeyCodes : List String → Except StrokeError (List KeyCodeValue)
  | [] => .ok []
  | command :: rest =>
    match tokenToKeyCodes command with
    | .error e => .error e
    | .ok codes =>
      match toKeyCodes rest with
      | .error e => .error e
      | .ok more => .ok (codes ++ more)

/-- ASCII-alphanumeric, the property the spec calls "alphanumeric". -/
def isAlphanumeric (c : Char) : Bool :=
  (48 ≤ c.toNat && c.toNat ≤ 57) || (65 ≤ c.toNat && c.toNat ≤ 90) ||
    (97 ≤ c.toNat && c.toNat ≤ 122)

/-- The characters the literal branch actually accepts: the
ASCII-alphanumeric ones, plus the ten non-ASCII characters whose Unicode
uppercase mapping begins with an ASCII letter. -/
def isAcceptedLiteralChar (c : Char) : Bool :=
  isAlphanumeric c || (unicodeUpperAsciiLead c).isSome

deriving instance DecidableEq for Except

/-- An observable step of `sendStrokes`: a key event injected into the
emulator (`simulateKeyEvent(code, true/false)`) or an awaited
`sleep(millis)`. -/
inductive KeyEvent
  | keyDown (code : KeyCodeValue)
  | keyUp (code : KeyCodeValue)
  | sleep (millis : Nat)
deriving DecidableEq, Repr

/-- Whether a step is a key event (down or up) rather than a sleep. -/
def isKeyEv : KeyEvent → Bool
  | .keyDown _ => true
  | .keyUp _ => true
  | .sleep _ => false

/-- Relation between adjacent steps of a dispatch trace: a key event is
immediately followed by the 100ms settle sleep. -/
def delayAfterKey (e₁ e₂ : KeyEvent) : Prop :=
  isKeyEv e₁ = true → e₂ = .sleep 100

/-- Error raised by `sendStrokes`: a throw from `toKeyCodes`, or the
null-dereference of `dosapp.current` when the emulator is not initialized
(the spec's `NotReadyError`). -/
inductive SendError
  | invalidStroke (e : StrokeError)
  | notReady
deriving DecidableEq, Repr

/-- The `for (const keycode of keycodes)` loop of `sendStrokes`: per code,
key-down, `sleep(100)`, key-up, `sleep(100)`.  `ready` models whether
`dosapp.current` is non-null; touching it while null throws before any
event of that iteration is emitted.  Returns the outcome together with the
trace of emitted steps. -/
def dispatchCodes (ready : Bool) :
    List KeyCodeValue → Except SendError Unit × List KeyEvent
  | [] => (.ok (), [])
  | code :: rest =>
    if ready then
      let next := dispatchCodes ready rest
      (next.1, .keyDown code :: .sleep 100 :: .keyUp code :: .sleep 100 :: next.2)
    else
      (.error .notReady, [])

/-- `sendStrokes`: translate the whole stroke list first, then dispatch the
key codes in order. -/
def sendStrokes (ready : Bool) (strokes : List String) : Except SendError Unit × List KeyEvent :=
  match toKeyCodes strokes with
  | .error e => (.error (.invalidStroke e), [])
  | .ok codes => dispatchCodes ready codes

/-- The `while (!matched)` loop of `watchForImage`.  `hasImage k` and
`aborted k` give the values read at the k-th check of `hasImage(image)`
resp. `abortSignal && abortSignal.aborted` (an absent signal is
`aborted = fun _ => false`).  Each iteration awaits `sleep(interval)` and
then checks; the loop has no internal bound, so it is run on explicit fuel:
the result is the index of the check that ended the loop (`none` when the
fuel ran out first) together with the list of sleeps awaited so far. -/
def watchRun (hasImage aborted : Nat → Bool) (interval : Nat) :
    Nat → Nat → Option Nat × List Nat
  | 0, _ => (none, [])
  | fuel + 1, k =>
    if hasImage k || aborted k then
      (some k, [interval])
    else
      let next := watchRun hasImage aborted interval fuel (k + 1)
      (next.1, interval :: next.2)

/-- Error raised by `getFile` when the persistent store has no record for
the path (in the source, reading `.contents` of an absent record throws);
the spec's `FileNotFoundError`. -/
inductive FileError
  | fileNotFound
deriving DecidableEq, Repr

/-- State of the emulator's filesystems: the live (Emscripten, in-memory)
filesystem and the persistent IndexedDB `FILE_DATA` store, each a partial
map from path to file contents (byte values). -/
structure EmuState where
  live : String → Option (List Nat)
  store : String → Option (List Nat)

/-- A primitive operation `writeFile` performs on the live filesystem:
`emscriptenFs.unlink(path)` or `fs.createFile(path, contents)`. -/
inductive FsOp
  | unlink (path : String)
  | create (path : String) (contents : List Nat)
deriving DecidableEq, Repr

/-- Effect of one primitive operation on the emulator state. -/
def applyOp (st : EmuState) : FsOp → EmuState
  | .unlink p => { st with live := fun q => if q = p then none else st.live q }
  | .create p c => { st with live := fun q => if q = p then some c else st.live q }

/-- The operations `writeFile` issues:
`if (emscriptenFs.analyzePath(path).exists) { emscriptenFs.unlink(path) }
 fs.createFile(path, contents)`. -/
def writeFileOps (st : EmuState) (path : String) (contents : List Nat) : List FsOp :=
  (if (st.live path).isSome then [FsOp.unlink path] else []) ++
    [FsOp.create path contents]

/-- `writeFile`: perform the issued operations on the state, in order. -/
def writeFile (st : EmuState) (path : String) (contents : List Nat) : EmuState :=
  (writeFileOps st path contents).foldl applyOp st

/-- `await fs.syncFs()` before the read in `getFile`.  Modelled from the
spec: `syncFs` is part of the external js-dos/Emscripten runtime, not of
this repository; the spec describes it as forcing "a full synchronization
of the live filesystem to its persistent backing store", so after it the
store holds exactly the live files. -/
def syncFs (st : EmuState) : EmuState :=
  { st with store := st.live }

/-- `getFile`: force a sync, then look the path up in the persistent
`FILE_DATA` store (`idb.get('FILE_DATA', path)`); an absent record makes
`file.contents` throw. Returns the post-sync state and the outcome. -/
def getFile (st : EmuState) (path : String) : EmuState × Except FileError (List Nat) :=
  let synced := syncFs st
  match synced.store path with
  | some contents => (synced, .ok contents)
  | none => (synced, .error .fileNotFound)

/-! ## Stroke-translator lemmas -/

theorem unicodeUpperAsciiLead_mem (c : Char) (u : Nat)
    (h : unicodeUpperAsciiLead c = some u) :
    u = 70 ∨ u = 73 ∨ u = 83 := by
  unfold unicodeUpperAsciiLead at h
  split_ifs at h <;> simp_all

/-- The guard's two ranges accept the upper-cased leading code unit exactly
for the accepted literal characters. -/
theorem jsUpperCharCode_accepted (c : Char) :
    ((48 ≤ jsUpperCharCode c ∧ jsUpperCharCode c ≤ 57) ∨
      (65 ≤ jsUpperCharCode c ∧ jsUpperCharCode c ≤ 90))
      ↔ isAcceptedLiteralChar c = true := by
  unfold jsUpperCharCode isAcceptedLiteralChar
  cases hspec : unicodeUpperAsciiLead c with
  | some u =>
    rcases unicodeUpperAsciiLead_mem c u hspec with rfl | rfl | rfl <;>
      · simp only [Option.isSome_some, Bool.or_true, iff_true]
        split_ifs with hlow <;> omega
  | none =>
    simp only [Option.isSome_none, Bool.or_false, isAlphanumeric,
      Bool.or_eq_true, Bool.and_eq_true, decide_eq_true_eq]
    split_ifs with hlow <;> omega

/-- Characterization of the per-character guard: it accepts exactly the
accepted literal characters and yields the upper-cased leading code
unit. -/
theorem alphanumCode_eq (c : Char) (command : String) :
    alphanumCode c command =
      if isAcceptedLiteralChar c = true then .ok (jsUpperCharCode c)
      else .error (.invalidChar c command) := by
  by_cases h : isAcceptedLiteralChar c = true
  · rw [if_pos h]
    rcases (jsUpperCharCode_accepted c).mpr h with hr | hr
    · simp [alphanumCode, hr]
    · have hne : ¬(48 ≤ jsUpperCharCode c ∧ jsUpperCharCode c ≤ 57) := by
        omega
      simp [alphanumCode, hne, hr]
  · rw [if_neg h]
    have hnor : ¬((48 ≤ jsUpperCharCode c ∧ jsUpperCharCode c ≤ 57) ∨
        (65 ≤ jsUpperCharCode c ∧ jsUpperCharCode c ≤ 90)) := fun hx =>
      h ((jsUpperCharCode_accepted c).mp hx)
    obtain ⟨h1, h2⟩ := not_or.mp hnor
    simp [alphanumCode, h1, h2]

theorem literalCodes_ok (command : String) (s : List Char)
    (h : ∀ c ∈ s, isAcceptedLiteralChar c = true) :
    literalCodes command s
      = .ok (s.map (fun c => KeyCodeValue.num (jsUpperCharCode c))) := by
  induction s with
  | nil => rfl
  | cons c cs ih =>
    have hc : isAcceptedLiteralChar c = true := h c (List.mem_cons_self c cs)
    have ih' := ih (fun d hd => h d (List.mem_cons_of_mem c hd))
    simp [literalCodes, alphanumCode_eq, hc, ih']

theorem tokenToKeyCodes_literal (command : String) (rest : List Char)
    (h : command.data = ':' :: rest) :
    tokenToKeyCodes command = literalCodes command rest := by
  unfold tokenToKeyCodes
  split
  · rename_i rest' heq
    rw [h] at heq
    obtain ⟨-, rfl⟩ := List.cons.inj heq
    rfl
  · rename_i hne
    exact absurd h (by simpa using hne rest)

theorem tokenToKeyCodes_manual (command : String)
    (h : ∀ rest, command.data ≠ ':' :: rest) :
    tokenToKeyCodes command =
      match manualMap (jsToLower command) with
      | some code => .ok [code]
      | none => .error (.cantConvert command) := by
  unfold tokenToKeyCodes
  split
  · rename_i rest heq
    exact absurd heq (h rest)
  · rfl

theorem toKeyCodes_cons_ok (t : String) (rest : List String)
    (codes more : List KeyCodeValue) (h1 : tokenToKeyCodes t = .ok codes)
    (h2 : toKeyCodes rest = .ok more) :
    toKeyCodes (t :: rest) = .ok (codes ++ more) := by
  simp [toKeyCodes, h1, h2]

theorem toKeyCodes_append (xs ys : List String) (a b : List KeyCodeValue)
    (hx : toKeyCodes xs = .ok a) (hy : toKeyCodes ys = .ok b) :
    toKeyCodes (xs ++ ys) = .ok (a ++ b) := by
  induction xs generalizing a with
  | nil =>
    simp only [toKeyCodes] at hx
    obtain rfl : ([] : List KeyCodeValue) = a := by simpa using hx
    simpa using hy
  | cons t xs ih =>
    cases htk : tokenToKeyCodes t with
    | error e => simp [toKeyCodes, htk] at hx
    | ok codes =>
      cases hxs : toKeyCodes xs with
      | error e => simp [toKeyCodes, htk, hxs] at hx
      | ok more =>
        simp only [toKeyCodes, htk, hxs] at hx
        obtain rfl : codes ++ more = a := by simpa using hx
        rw [List.cons_append]
        rw [toKeyCodes_cons_ok t (xs ++ ys) codes (more ++ b) htk (ih more hxs)]
        simp [List.append_assoc]

/-- C1: a literal directive `":" + s` with `s` all alphanumeric contributes
exactly `s.length` key codes, the upper-cased ASCII ordinals of the
characters of `s` in order; tokens contribute left to right across the
stroke list, and `translate([":AB", "enter"]) = [65, 66, 13]`. -/
theorem toKeyCodes_literal_directive_c1 (pre post : List String)
    (s : List Char) (a b : List KeyCodeValue)
    (hs : ∀ c ∈ s, isAlphanumeric c = true)
    (hpre : toKeyCodes pre = .ok a) (hpost : toKeyCodes post = .ok b) :
    toKeyCodes (pre ++ (⟨':' :: s⟩ : String) :: post)
        = .ok (a ++ s.map (fun c => KeyCodeValue.num (jsUpperCharCode c)) ++ b)
      ∧ (s.map (fun c => KeyCodeValue.num (jsUpperCharCode c))).length = s.length
      ∧ toKeyCodes [":AB", "enter"] = .ok [.num 65, .num 66, .num 13] := by
  refine ⟨?_, List.length_map s _, rfl⟩
  have hs' : ∀ c ∈ s, isAcceptedLiteralChar c = true := fun c hc => by
    simp [isAcceptedLiteralChar, hs c hc]
  have hlit : tokenToKeyCodes (⟨':' :: s⟩ : String)
      = .ok (s.map (fun c => KeyCodeValue.num (jsUpperCharCode c))) := by
    rw [tokenToKeyCodes_literal _ s rfl]
    exact literalCodes_ok _ s hs'
  have hmid : toKeyCodes ((⟨':' :: s⟩ : String) :: post)
      = .ok (s.map (fun c => KeyCodeValue.num (jsUpperCharCode c)) ++ b) :=
    toKeyCodes_cons_ok _ post _ b hlit hpost
  rw [toKeyCodes_append pre _ a _ hpre hmid, List.append_assoc]

/-- Witness for C1 at `pre = []`, `s = "AB"`, `post = ["enter"]`. -/
theorem toKeyCodes_literal_directive_c1_witness :
    toKeyCodes ([] ++ (⟨':' :: ['A', 'B']⟩ : String) :: ["enter"])
      = .ok ([] ++ ['A', 'B'].map (fun c => KeyCodeValue.num (jsUpperCharCode c))
          ++ [.num 13]) :=
  (toKeyCodes_literal_directive_c1 [] ["enter"] ['A', 'B'] [] [.num 13]
    (by decide) rfl rfl).1

theorem named_key_head_ne_colon (t : String) (c0 : Char) (cs : List Char)
    (h : t.data.map jsLowerChar = c0 :: cs) (hc0 : jsLowerChar ':' ≠ c0) :
    ∀ rest, t.data ≠ ':' :: rest := by
  intro rest heq
  rw [heq] at h
  simp only [List.map] at h
  exact hc0 (List.cons.inj h).1

theorem toKeyCodes_single_manual (t : String) (v : KeyCodeValue)
    (hne : ∀ rest, t.data ≠ ':' :: rest)
    (hmap : manualMap (jsToLower t) = some v) :
    toKeyCodes [t] = .ok [v] := by
  have htok : tokenToKeyCodes t = .ok [v] := by
    rw [tokenToKeyCodes_manual t hne, hmap]
  simpa using toKeyCodes_cons_ok t [] [v] [] htok rfl

/-- C3: every recognized named key, in any letter case, translates to
exactly one key code, the fixed table value (left 37, up 38, right 39,
down 40, alt 18, enter 13, esc 27). -/
theorem toKeyCodes_named_keys_c3 (t name : String) (code : Nat)
    (hmem : (name, code) ∈ [("left", 37), ("up", 38), ("right", 39),
      ("down", 40), ("alt", 18), ("enter", 13), ("esc", 27)])
    (hlow : jsToLower t = name) :
    toKeyCodes [t] = .ok [KeyCodeValue.num code] := by
  have hd : t.data.map jsLowerChar = name.data := congrArg String.data hlow
  simp only [List.mem_cons, List.not_mem_nil, or_false, Prod.mk.injEq] at hmem
  rcases hmem with ⟨rfl, rfl⟩ | ⟨rfl, rfl⟩ | ⟨rfl, rfl⟩ | ⟨rfl, rfl⟩ |
    ⟨rfl, rfl⟩ | ⟨rfl, rfl⟩ | ⟨rfl, rfl⟩
  · exact toKeyCodes_single_manual t (.num 37)
      (named_key_head_ne_colon t 'l' ['e', 'f', 't'] hd (by decide))
      (by rw [hlow]; rfl)
  · exact toKeyCodes_single_manual t (.num 38)
      (named_key_head_ne_colon t 'u' ['p'] hd (by decide))
      (by rw [hlow]; rfl)
  · exact toKeyCodes_single_manual t (.num 39)
      (named_key_head_ne_colon t 'r' ['i', 'g', 'h', 't'] hd (by decide))
      (by rw [hlow]; rfl)
  · exact toKeyCodes_single_manual t (.num 40)
      (named_key_head_ne_colon t 'd' ['o', 'w', 'n'] hd (by decide))
      (by rw [hlow]; rfl)
  · exact toKeyCodes_single_manual t (.num 18)
      (named_key_head_ne_colon t 'a' ['l', 't'] hd (by decide))
      (by rw [hlow]; rfl)
  · exact toKeyCodes_single_manual t (.num 13)
      (named_key_head_ne_colon t 'e' ['n', 't', 'e', 'r'] hd (by decide))
      (by rw [hlow]; rfl)
  · exact toKeyCodes_single_manual t (.num 27)
      (named_key_head_ne_colon t 'e' ['s', 'c'] hd (by decide))
      (by rw [hlow]; rfl)

/-- Witness for C3 at the upper-cased token `"ENTER"`. -/
theorem toKeyCodes_named_keys_c3_witness :
    toKeyCodes ["ENTER"] = .ok [KeyCodeValue.num 13] :=
  toKeyCodes_named_keys_c3 "ENTER" "enter" 13 (by decide) rfl

/-! ## Input-sequencer lemmas -/

theorem dispatchCodes_true (codes : List KeyCodeValue) :
    dispatchCodes true codes =
      (.ok (), codes.flatMap (fun c =>
        [KeyEvent.keyDown c, .sleep 100, .keyUp c, .sleep 100])) := by
  induction codes with
  | nil => rfl
  | cons c rest ih => simp [dispatchCodes, ih]

theorem chain'_delay_sleep_cons (l : List KeyEvent)
    (h : List.Chain' delayAfterKey l) :
    List.Chain' delayAfterKey (KeyEvent.sleep 100 :: l) := by
  cases l with
  | nil => simp
  | cons e l' => exact List.Chain'.cons (fun hk => absurd hk (by decide)) h

theorem dispatchCodes_chain (codes : List KeyCodeValue) :
    List.Chain' delayAfterKey (dispatchCodes true codes).2 := by
  induction codes with
  | nil => simp [dispatchCodes]
  | cons c rest ih =>
    have h1 := chain'_delay_sleep_cons _ ih
    have h2 : List.Chain' delayAfterKey
        (KeyEvent.keyUp c :: KeyEvent.sleep 100 :: (dispatchCodes true rest).2) :=
      List.Chain'.cons (fun _ => rfl) h1
    have h3 := chain'_delay_sleep_cons _ h2
    exact List.Chain'.cons (fun _ => rfl) h3

theorem dispatchCodes_filter (codes : List KeyCodeValue) :
    (dispatchCodes true codes).2.filter isKeyEv
      = codes.flatMap (fun c => [KeyEvent.keyDown c, KeyEvent.keyUp c]) := by
  induction codes with
  | nil => rfl
  | cons c rest ih => simp [dispatchCodes, List.filter, isKeyEv, ih]

/-- C4: dispatching codes `[c1, ..., cn]` with the emulator ready emits
exactly `down(c1), up(c1), ..., down(cn), up(cn)` in order, strictly
sequentially, with the fixed 100ms settle sleep after every half-event, so
no two key events are adjacent. -/
theorem dispatchCodes_order_c4 (codes : List KeyCodeValue) :
    (dispatchCodes true codes).1 = .ok ()
    ∧ (dispatchCodes true codes).2
        = codes.flatMap (fun c =>
            [KeyEvent.keyDown c, .sleep 100, .keyUp c, .sleep 100])
    ∧ (dispatchCodes true codes).2.filter isKeyEv
        = codes.flatMap (fun c => [KeyEvent.keyDown c, KeyEvent.keyUp c])
    ∧ List.Chain' delayAfterKey (dispatchCodes true codes).2 :=
  ⟨by rw [dispatchCodes_true], by rw [dispatchCodes_true],
    dispatchCodes_filter codes, dispatchCodes_chain codes⟩

/-! ## Image-watcher lemmas -/

theorem watchRun_exit (hasImage aborted : Nat → Bool) (interval : Nat) :
    ∀ (fuel s k : Nat), s ≤ k →
      (∀ j, s ≤ j → j < k → (hasImage j || aborted j) = false) →
      (hasImage k || aborted k) = true → k < s + fuel →
      watchRun hasImage aborted interval fuel s
        = (some k, List.replicate (k + 1 - s) interval) := by
  intro fuel
  induction fuel with
  | zero => intro s k _ _ _ hlt; omega
  | succ fuel ih =>
    intro s k hsk hbefore hk hlt
    by_cases hs : (hasImage s || aborted s) = true
    · have hks : k = s := by
        by_contra hne
        have hslt : s < k := lt_of_le_of_ne hsk (Ne.symm hne)
        rw [hbefore s le_rfl hslt] at hs
        cases hs
      subst hks
      simp [watchRun, hs, List.replicate]
    · have hs' : (hasImage s || aborted s) = false := by
        cases h : (hasImage s || aborted s) with
        | false => rfl
        | true => exact absurd h hs
      have hslt : s < k := by
        rcases Nat.eq_or_lt_of_le hsk with heq | h
        · rw [← heq] at hk
          rw [hk] at hs'
          cases hs'
        · exact h
      have ihres := ih (s + 1) k hslt
        (fun j hj1 hj2 => hbefore j (by omega) hj2) hk (by omega)
      have hstep : watchRun hasImage aborted interval (fuel + 1) s
          = ((watchRun hasImage aborted interval fuel (s + 1)).1,
             interval :: (watchRun hasImage aborted interval fuel (s + 1)).2) := by
        simp [watchRun, hs']
      rw [hstep, ihres]
      have hrep : k + 1 - s = (k + 1 - (s + 1)) + 1 := by omega
      simp [hrep, List.replicate_succ]

theorem watchRun_no_exit (hasImage aborted : Nat → Bool) (interval : Nat)
    (hall : ∀ j, (hasImage j || aborted j) = false) :
    ∀ fuel s, (watchRun hasImage aborted interval fuel s).1 = none := by
  intro fuel
  induction fuel with
  | zero => intro s; rfl
  | succ fuel ih =>
    intro s
    simp [watchRun, hall s, ih (s + 1)]

/-- C5: the watch loop sleeps `interval` before each check; it exits at the
first check at which the matcher or the abort signal reads true (so it
terminates by the next poll after either becomes true, the abort case even
if the matcher never matches), and with neither ever true it never exits,
whatever fuel it is given. -/
theorem watchForImage_termination_c5 (hasImage aborted : Nat → Bool)
    (interval k fuel : Nat) :
    ((hasImage k || aborted k) = true →
      (∀ j, j < k → (hasImage j || aborted j) = false) → k < fuel →
      watchRun hasImage aborted interval fuel 0
        = (some k, List.replicate (k + 1) interval))
    ∧ ((∀ j, hasImage j = false) → aborted k = true →
      (∀ j, j < k → aborted j = false) → k < fuel →
      watchRun hasImage aborted interval fuel 0
        = (some k, List.replicate (k + 1) interval))
    ∧ ((∀ j, (hasImage j || aborted j) = false) →
      (watchRun hasImage aborted interval fuel 0).1 = none) := by
  refine ⟨fun hk hb hf => ?_, fun hnever hk hb hf => ?_,
    fun hall => watchRun_no_exit hasImage aborted interval hall fuel 0⟩
  · have h := watchRun_exit hasImage aborted interval fuel 0 k (Nat.zero_le k)
      (fun j _ hj => hb j hj) hk (by omega)
    simpa using h
  · have h1 : (hasImage k || aborted k) = true := by
      rw [hnever k, hk]
      rfl
    have h2 : ∀ j, j < k → (hasImage j || aborted j) = false := fun j hj => by
      rw [hnever j, hb j hj]
      rfl
    have h := watchRun_exit hasImage aborted interval fuel 0 k (Nat.zero_le k)
      (fun j _ hj => h2 j hj) h1 (by omega)
    simpa using h

/-- Witness for C5: the matcher first reads true at check 2; with interval
64 and fuel 5 the loop exits at check 2 after three sleeps. -/
theorem watchForImage_termination_c5_witness :
    watchRun (fun j => decide (2 ≤ j)) (fun _ => false) 64 5 0
      = (some 2, List.replicate 3 64) :=
  (watchForImage_termination_c5 (fun j => decide (2 ≤ j)) (fun _ => false)
      64 2 5).1 (by decide) (by decide) (by decide)

/-- C9 counterexample: `[":"]` is a non-empty stroke list whose translation
succeeds (with zero key codes), yet `sendStrokes` with the emulator not
ready succeeds instead of failing with `notReady`. -/
theorem sendStrokes_not_ready_c9_counterexample :
    ([(":" : String)] ≠ ([] : List String))
    ∧ (toKeyCodes [(":" : String)]).isOk = true
    ∧ sendStrokes false [(":" : String)] = (.ok (), [])
    ∧ (sendStrokes false [(":" : String)]).1 ≠ .error SendError.notReady := by
  refine ⟨by simp, rfl, rfl, by decide⟩

/-- C9 (amended): if the emulator is not initialized, `sendStrokes` fails
with `notReady` — and emits no event — for every stroke list whose
translation succeeds with at least one key code. -/
theorem sendStrokes_not_ready_c9 (strokes : List String)
    (codes : List KeyCodeValue)
    (htr : toKeyCodes strokes = .ok codes) (hne : codes ≠ []) :
    sendStrokes false strokes = (.error .notReady, []) := by
  unfold sendStrokes
  rw [htr]
  cases codes with
  | nil => exact absurd rfl hne
  | cons c rest => simp [dispatchCodes]

/-- Witness for C9 (amended) at `strokes = ["enter"]`. -/
theorem sendStrokes_not_ready_c9_witness :
    sendStrokes false ["enter"] = (.error .notReady, []) :=
  sendStrokes_not_ready_c9 ["enter"] [.num 13] rfl (by decide)

theorem writeFile_live_self (st : EmuState) (path : String)
    (contents : List Nat) :
    (writeFile st path contents).live path = some contents := by
  unfold writeFile writeFileOps
  by_cases h : (st.live path).isSome = true <;>
    simp [h, applyOp, List.foldl]

theorem writeFile_live_other (st : EmuState) (path : String)
    (contents : List Nat) (q : String) (hq : q ≠ path) :
    (writeFile st path contents).live q = st.live q := by
  unfold writeFile writeFileOps
  by_cases h : (st.live path).isSome = true <;>
    simp [h, applyOp, List.foldl, hq]

theorem writeFile_store_eq (st : EmuState) (path : String)
    (contents : List Nat) :
    (writeFile st path contents).store = st.store := by
  unfold writeFile writeFileOps
  by_cases h : (st.live path).isSome = true <;>
    simp [h, applyOp, List.foldl]

/-- C6: round-trip law — `writeFile path bytes` then `getFile path` (which
forces a sync of the live filesystem to the persistent store) returns
exactly `bytes`, for every prior state, path, and non-empty byte
sequence. -/
theorem file_roundtrip_c6 (st : EmuState) (path : String) (bytes : List Nat)
    (_hbytes : bytes ≠ []) :
    (getFile (writeFile st path bytes) path).2 = .ok bytes := by
  unfold getFile syncFs
  simp [writeFile_live_self st path bytes]

/-- Witness for C6 on an empty initial state. -/
theorem file_roundtrip_c6_witness :
    (getFile (writeFile ⟨fun _ => none, fun _ => none⟩ "/game/save.dat"
        [1, 2, 3]) "/game/save.dat").2 = .ok [1, 2, 3] :=
  file_roundtrip_c6 ⟨fun _ => none, fun _ => none⟩ "/game/save.dat"
    [1, 2, 3] (by decide)

/-- C7: `writeFile` unlinks the existing live file exactly when one exists
at the path, then creates the file fresh; afterwards the live filesystem
holds the new bytes at the path, every other path is untouched, and the
persistent store is untouched. -/
theorem writeFile_delete_then_create_c7 (st : EmuState) (path : String)
    (contents : List Nat) :
    ((st.live path).isSome = true →
      writeFileOps st path contents
        = [FsOp.unlink path, FsOp.create path contents])
    ∧ ((st.live path).isSome = false →
      writeFileOps st path contents = [FsOp.create path contents])
    ∧ (FsOp.unlink path ∈ writeFileOps st path contents
        ↔ (st.live path).isSome = true)
    ∧ (writeFile st path contents).live path = some contents
    ∧ (∀ q, q ≠ path → (writeFile st path contents).live q = st.live q)
    ∧ (writeFile st path contents).store = st.store := by
  refine ⟨fun h => by simp [writeFileOps, h],
    fun h => by simp [writeFileOps, h], ?_,
    writeFile_live_self st path contents,
    fun q hq => writeFile_live_other st path contents q hq,
    writeFile_store_eq st path contents⟩
  by_cases h : (st.live path).isSome = true <;> simp [writeFileOps, h]

/-- Witness for C7: with `/a` present and `/b` absent in the live
filesystem, writing `/a` unlinks first and writing `/b` creates
directly. -/
theorem writeFile_delete_then_create_c7_witness :
    writeFileOps ⟨fun p => if p = "/a" then some [9] else none, fun _ => none⟩
        "/a" [2] = [FsOp.unlink "/a", FsOp.create "/a" [2]]
    ∧ writeFileOps ⟨fun p => if p = "/a" then some [9] else none, fun _ => none⟩
        "/b" [3] = [FsOp.create "/b" [3]] :=
  ⟨(writeFile_delete_then_create_c7 _ "/a" [2]).1 (by decide),
    (writeFile_delete_then_create_c7 _ "/b" [3]).2.1 (by decide)⟩

/-- C8: when the persistent store holds no record for the path after the
forced sync, `getFile` fails with `fileNotFound`. -/
theorem getFile_missing_c8 (st : EmuState) (path : String)
    (h : (syncFs st).store path = none) :
    (getFile st path).2 = .error .fileNotFound := by
  unfold getFile
  simp [h]

/-- Witness for C8: `getFile "/missing"` on the empty state. -/
theorem getFile_missing_c8_witness :
    (getFile ⟨fun _ => none, fun _ => none⟩ "/missing").2
      = .error .fileNotFound :=
  getFile_missing_c8 ⟨fun _ => none, fun _ => none⟩ "/missing" rfl

end Flaggle
